import Mathlib

/-!
Verification of the chunking / indexing / search / caching core of the
`rag_indexing_tool` repository, as a shallow embedding in Lean.

Python strings are modelled as `List Char`; Python dicts whose values we
need are modelled as insertion-ordered association lists; fallible or
potentially non-terminating computations return `Option` / `Except`.
-/

set_option autoImplicit false

namespace Rag

/-- Values stored in the dynamic metadata dictionaries of the Python code. -/
inductive PyVal where
  | str (s : String)
  | nat (n : Nat)
  | bool (b : Bool)
deriving DecidableEq, Repr

/-- A Python dict with string keys, modelled as an insertion-ordered
association list with (invariantly) unique keys. -/
abbrev Dict (V : Type) := List (String × V)

/-- `k in d` for a Python dict. -/
def dictHas {V : Type} (d : Dict V) (k : String) : Bool :=
  d.any (fun p => p.1 = k)

/-- `d.get(k)` (returning `None` when absent). -/
def dictGet {V : Type} (d : Dict V) (k : String) : Option V :=
  (d.find? (fun p => p.1 = k)).map (fun p => p.2)

/-- Python dict assignment `d[k] = v`: updates the entry in place when the key
exists (keeping its position), otherwise appends the new entry. -/
def dictSet {V : Type} (d : Dict V) (k : String) (v : V) : Dict V :=
  if dictHas d k then d.map (fun p => if p.1 = k then (k, v) else p)
  else d ++ [(k, v)]

/-- Metadata dictionaries attached to chunks (`metadata` in `split_text`). -/
abbrev Metadata := Dict PyVal

/-- Python whitespace for `str.strip()` and the regex class `\s`
(restricted to the ASCII whitespace characters). -/
def isPySpace (c : Char) : Bool :=
  c = ' ' ∨ c = '\t' ∨ c = '\n' ∨ c = '\r' ∨ c = '\x0b' ∨ c = '\x0c'

/-- Python `str.strip()`: drop leading and trailing whitespace. -/
def pyStrip (s : List Char) : List Char :=
  ((s.dropWhile isPySpace).reverse.dropWhile isPySpace).reverse

/-- Python slice `s[a:b]` (for the non-negative indices used by the code). -/
def pySlice (s : List Char) (a b : Nat) : List Char :=
  (s.drop a).take (b - a)

/-- Python truthiness of an optional metadata dict (`if metadata:`):
`None` and the empty dict are falsy. -/
def mdTruthy (md : Option Metadata) : Bool :=
  match md with
  | none => false
  | some m => !m.isEmpty

/-! ### The sentence-boundary regex `([.!?]\s+|\.\n+|\n\n+)`

`re.finditer` semantics: scan left to right; at each position try the
alternation branches in order, quantifiers greedy; on a match continue
scanning after its end (matches do not overlap), otherwise advance one
character.  `split_text` only uses the end offset of the last match. -/

/-- Length of the maximal run of characters satisfying `p` at the head. -/
def runLen (p : Char → Bool) : List Char → Nat
  | [] => 0
  | c :: cs => if p c then runLen p cs + 1 else 0

/-- Length of the match of `([.!?]\s+|\.\n+|\n\n+)` anchored at the head of
the list, if any.  Branches are tried in the order written in the source;
`\s+` and `\n+` are greedy. -/
def matchLen : List Char → Option Nat
  | [] => none
  | c :: cs =>
    if (c = '.' ∨ c = '!' ∨ c = '?') ∧ 0 < runLen isPySpace cs then
      some (runLen isPySpace cs + 1)
    else if c = '.' ∧ 0 < runLen (fun d => d = '\n') cs then
      some (runLen (fun d => d = '\n') cs + 1)
    else if c = '\n' ∧ 0 < runLen (fun d => d = '\n') cs then
      some (runLen (fun d => d = '\n') cs + 1)
    else none

/-- `re.finditer` scan keeping only the (absolute, exclusive) end offset of
the most recent match seen so far.  The scan consumes at least one character
per step, so `fuel = s.length` (as supplied by `lastMatchEnd`) always
suffices and the fuel-exhaustion branch is unreachable. -/
def lastEndAux : Nat → List Char → Nat → Option Nat → Option Nat
  | 0, _, _, acc => acc
  | _ + 1, [], _, acc => acc
  | fuel + 1, c :: cs, pos, acc =>
    match matchLen (c :: cs) with
    | some L => lastEndAux fuel (cs.drop (L - 1)) (pos + L) (some (pos + L))
    | none => lastEndAux fuel cs (pos + 1) acc

/-- End offset of the last `finditer` match of the sentence-boundary pattern
(`matches[-1].end()` in the source), `none` when there is no match. -/
def lastMatchEnd (s : List Char) : Option Nat :=
  lastEndAux s.length s 0 none

/-! ### `TextSplitter.split_text` -/

/-- The three constructor arguments of `TextSplitter`. -/
structure SplitConfig where
  chunk_size : Nat
  chunk_overlap : Nat
  min_chunk_size : Nat
deriving DecidableEq, Repr

/-- One chunk dictionary produced by `split_text`.  The `metadata` key is
present only when a truthy metadata dict was supplied, hence the `Option`. -/
structure Chunk where
  text : List Char
  chunk_index : Nat
  start_char : Nat
  end_char : Nat
  char_count : Nat
  metadata : Option Metadata
deriving DecidableEq, Repr

/-- End position of the chunk starting at `pos` (lines 70-84 of
`text_splitter.py`): tentative end `min(pos + chunk_size, len(text))`; when
that is not the end of the text, search the last 20% of the window for the
rightmost sentence boundary and cut there.  `int(chunk_size * 0.2)` equals
`chunk_size / 5` in integer arithmetic for every machine-range size. -/
def chunkEnd (cfg : SplitConfig) (text : List Char) (pos : Nat) : Nat :=
  let end0 := min (pos + cfg.chunk_size) text.length
  if end0 < text.length then
    let searchStart := max pos (end0 - cfg.chunk_size / 5)
    match lastMatchEnd (pySlice text searchStart end0) with
    | some e => searchStart + e
    | none => end0
  else end0

/-- Cursor advance (lines 108-112): `max(pos + 1, end - overlap)`, then the
infinite-loop protection clamps any value `≥ end` back to `end`.  Nat
subtraction agrees with the Python ints here because a negative
`end - overlap` always loses the `max` against `pos + 1`. -/
def nextPos (cfg : SplitConfig) (text : List Char) (pos : Nat) : Nat :=
  let e := chunkEnd cfg text pos
  let n0 := max (pos + 1) (e - cfg.chunk_overlap)
  if e ≤ n0 then e else n0

/-- The chunk dictionary appended at lines 91-104. -/
def emitChunk (md : Option Metadata) (pos endPos idx : Nat) (chunkText : List Char) : Chunk :=
  { text := chunkText
    chunk_index := idx
    start_char := pos
    end_char := endPos
    char_count := chunkText.length
    metadata :=
      if mdTruthy md then md.map (fun m => dictSet m "chunk_index" (PyVal.nat idx))
      else none }

/-- The `while current_pos < len(text)` loop of `split_text` (lines 68-113).
`fuel` bounds the number of iterations; `none` models a computation that is
still running when the fuel is exhausted (for `chunk_size = 0` the Python
loop really does not terminate). -/
def splitLoop (cfg : SplitConfig) (text : List Char) (md : Option Metadata) :
    Nat → Nat → Nat → Option (List Chunk)
  | 0, pos, _ => if text.length ≤ pos then some [] else none
  | fuel + 1, pos, idx =>
    if pos < text.length then
      let endPos := chunkEnd cfg text pos
      let chunkText := pyStrip (pySlice text pos endPos)
      if cfg.min_chunk_size ≤ chunkText.length ∨ idx = 0 then
        (splitLoop cfg text md fuel (nextPos cfg text pos) (idx + 1)).map
          (fun rest => emitChunk md pos endPos idx chunkText :: rest)
      else
        splitLoop cfg text md fuel (nextPos cfg text pos) idx
    else some []

/-- `TextSplitter.split_text` (lines 33-115): empty / whitespace-only input
yields `[]`; text of at most `chunk_size` characters (after stripping)
yields a single whole-text chunk; otherwise the scanning loop runs, started
with enough fuel for every terminating execution. -/
def split_text (cfg : SplitConfig) (text0 : List Char) (md : Option Metadata) :
    Option (List Chunk) :=
  if (pyStrip text0).isEmpty then some []
  else if (pyStrip text0).length ≤ cfg.chunk_size then
    some [{ text := pyStrip text0
            chunk_index := 0
            start_char := 0
            end_char := (pyStrip text0).length
            char_count := (pyStrip text0).length
            metadata := if mdTruthy md then md else none }]
  else splitLoop cfg (pyStrip text0) md ((pyStrip text0).length + 1) 0 0

/-! ### `LRUCache` (src/utils/cache.py) -/

/-- State of `LRUCache`: the Python dict `cache` (insertion-ordered, unique
keys) and the recency list `access_order` (front = least recently used).
`_make_key`'s deterministic md5 digest of the serialized arguments is
modelled by the serialized key string itself. -/
structure LRUCache (V : Type) where
  maxsize : Nat
  cache : Dict V
  access_order : List String
deriving DecidableEq, Repr

/-- `LRUCache(maxsize)`. -/
def LRUCache.init (V : Type) (maxsize : Nat) : LRUCache V :=
  { maxsize := maxsize, cache := [], access_order := [] }

/-- `get`: on a hit, move the key to the back of `access_order`
(`list.remove` of the first occurrence, then `append`) and return the cached
value; on a miss return `None` and leave the state unchanged. -/
def LRUCache.get {V : Type} (c : LRUCache V) (k : String) : Option V × LRUCache V :=
  if dictHas c.cache k then
    (dictGet c.cache k, { c with access_order := c.access_order.erase k ++ [k] })
  else (none, c)

/-- The eviction step of `set`: `oldest_key = access_order.pop(0)` followed
by `del cache[oldest_key]`.  `pop(0)` on an empty list would raise in
Python; that state is unreachable under `LRUCache.Inv`. -/
def evictLRU {V : Type} (c : LRUCache V) : LRUCache V :=
  match c.access_order with
  | [] => c
  | oldest :: rest =>
    { c with cache := c.cache.eraseP (fun p => p.1 = oldest), access_order := rest }

/-- `set`: when the cache is at capacity and the key is new, evict the front
of `access_order`; then store the value and move the key to the back of
`access_order`. -/
def LRUCache.set {V : Type} (c : LRUCache V) (v : V) (k : String) : LRUCache V :=
  let c1 :=
    if c.maxsize ≤ c.cache.length ∧ ¬ dictHas c.cache k then evictLRU c else c
  { c1 with cache := dictSet c1.cache k v, access_order := c1.access_order.erase k ++ [k] }

/-- `size()`. -/
def LRUCache.size {V : Type} (c : LRUCache V) : Nat :=
  c.cache.length

/-- `clear()`. -/
def LRUCache.clear {V : Type} (c : LRUCache V) : LRUCache V :=
  { c with cache := [], access_order := [] }

/-- The dict keys, in insertion order. -/
def LRUCache.keys {V : Type} (c : LRUCache V) : List String :=
  c.cache.map Prod.fst

/-- The representation invariant maintained by the cache operations: no
duplicate keys, and `cache` and `access_order` hold the same key set. -/
def LRUCache.Inv {V : Type} (c : LRUCache V) : Prop :=
  c.keys.Nodup ∧ c.access_order.Nodup ∧
    (∀ k ∈ c.keys, k ∈ c.access_order) ∧ ∀ k ∈ c.access_order, k ∈ c.keys

/-! ### `SearchService.search` result processing (src/services/search_service.py) -/

/-- One row returned by the vector store for the query: text, metadata and
the reported distance.  The Python loop walks four parallel equal-length
lists indexed by `i`; this is the per-row view of that data.  Distance
arithmetic is modelled over `ℚ`. -/
structure RawHit where
  document : String
  metadata : Metadata
  distance : ℚ
deriving DecidableEq, Repr

/-- Line 90: `score = max(0.0, 1.0 - distance)`. -/
def hitScore (h : RawHit) : ℚ :=
  max 0 (1 - h.distance)

/-- The result object assembled at lines 96-119 (the fields the claims
mention): `chunk_index = metadata.get('chunk_index', 0)`,
`document_id = metadata.get('document_id')`. -/
structure SearchResult where
  text : String
  score : ℚ
  chunk_index : Nat
  document_id : Option String
deriving DecidableEq, Repr

def buildResult (h : RawHit) : SearchResult :=
  { text := h.document
    score := hitScore h
    chunk_index :=
      match dictGet h.metadata "chunk_index" with
      | some (PyVal.nat n) => n
      | _ => 0
    document_id :=
      match dictGet h.metadata "document_id" with
      | some (PyVal.str s) => some s
      | _ => none }

/-- Line 93: the result survives unless a threshold is supplied and the
score is below it. -/
def passesMin (minScore : Option ℚ) (score : ℚ) : Bool :=
  match minScore with
  | none => true
  | some m => decide (¬ score < m)

/-- The result loop of `SearchService.search` (lines 85-121): per hit compute
the score, `continue` when below `min_score`, otherwise append the result
object; hits are consumed in the order the store returned them. -/
def processHits (minScore : Option ℚ) : List RawHit → List SearchResult
  | [] => []
  | h :: hs =>
    if passesMin minScore (hitScore h) then buildResult h :: processHits minScore hs
    else processHits minScore hs

/-! ### `IndexingService.delete_document` (src/services/indexing_service.py) -/

/-- The metadata of one stored chunk record, as used by the delete path. -/
structure StoredRec where
  id : String
  document_id : String
  file_path : String
deriving DecidableEq, Repr

/-- Python truthiness of an optional string argument: `None` and `""` are
falsy. -/
def truthy (s : Option String) : Bool :=
  match s with
  | none => false
  | some v => decide (¬ v = "")

inductive DeleteErr where
  | invalidArgument
  | notFound
deriving DecidableEq, Repr

/-- `delete_document` (lines 194-281) against a store whose backend calls
succeed (the `except`-fallback count-comparison is the failing-backend path
and is not exercised here): validate the selectors (line 205 raises only
when both are falsy); pick the `document_id` branch whenever `document_id`
is truthy; check existence via the 1-result filtered query; delete every
matching record; return `count_before - count_after`. -/
def delete_document (document_id file_path : Option String)
    (store : List StoredRec) : Except DeleteErr (Nat × List StoredRec) :=
  if ¬ truthy document_id ∧ ¬ truthy file_path then
    Except.error DeleteErr.invalidArgument
  else if truthy document_id then
    if store.any (fun r => r.document_id = document_id.getD "") then
      Except.ok
        (store.length -
          (store.filter (fun r => ¬ r.document_id = document_id.getD "")).length,
         store.filter (fun r => ¬ r.document_id = document_id.getD ""))
    else Except.error DeleteErr.notFound
  else
    if store.any (fun r => r.file_path = file_path.getD "") then
      Except.ok
        (store.length -
          (store.filter (fun r => ¬ r.file_path = file_path.getD "")).length,
         store.filter (fun r => ¬ r.file_path = file_path.getD ""))
    else Except.error DeleteErr.notFound

/-! ### `ChromaManager.count` (src/database/chroma_manager.py lines 247-253) -/

/-- `count()` wraps `collection.count()` in `try/except` and returns `0` on
any backend exception (modelled as `Except.error`). -/
def chroma_count (backend : Except String Nat) : Nat :=
  match backend with
  | Except.ok n => n
  | Except.error _ => 0

/-! ### Chunk-id construction in `IndexingService.index_document` -/

/-- Lines 94-123: `for i, chunk in enumerate(chunks_with_embeddings):`
`ids.append(f"{document_id}_chunk_{i}")`.  `encode_chunks` returns the same
chunk list (only adding an embedding field), so the enumeration runs over
`split_text`'s output in order. -/
def mkChunkIds (document_id : String) (chunks : List Chunk) : List String :=
  chunks.enum.map (fun p => document_id ++ "_chunk_" ++ Nat.repr p.1)

/-- Decimal value of a digit character (left inverse of `Nat.digitChar` on
digits); used to invert `Nat.repr`. -/
def digitVal (c : Char) : Nat :=
  c.toNat - 48

/-- Decimal value of a character list, most significant digit first. -/
def digitsVal (l : List Char) : Nat :=
  l.foldl (fun a c => 10 * a + digitVal c) 0

/-! ## Helper lemmas -/

theorem runLen_le (p : Char → Bool) (s : List Char) : runLen p s ≤ s.length := by
  induction s with
  | nil => simp [runLen]
  | cons c cs ih =>
    simp only [runLen, List.length_cons]
    split <;> omega

theorem matchLen_bounds {s : List Char} {L : Nat} (h : matchLen s = some L) :
    1 ≤ L ∧ L ≤ s.length := by
  match s with
  | [] => simp [matchLen] at h
  | c :: cs =>
    have h1 := runLen_le isPySpace cs
    have h2 := runLen_le (fun d => d = '\n') cs
    simp only [matchLen, List.length_cons] at h ⊢
    split at h
    · cases h; omega
    · split at h
      · cases h; omega
      · split at h
        · cases h; omega
        · cases h

theorem lastEndAux_bounds :
    ∀ (fuel : Nat) (s : List Char) (pos : Nat) (acc : Option Nat) (e : Nat),
      lastEndAux fuel s pos acc = some e →
      acc = some e ∨ (pos < e ∧ e ≤ pos + s.length) := by
  intro fuel
  induction fuel with
  | zero =>
    intro s pos acc e h
    exact Or.inl h
  | succ fuel ih =>
    intro s pos acc e h
    match s with
    | [] => exact Or.inl h
    | c :: cs =>
      simp only [lastEndAux] at h
      cases hm : matchLen (c :: cs) with
      | some L =>
        rw [hm] at h
        have hb := matchLen_bounds hm
        rcases ih _ _ _ _ h with h1 | h1
        · rcases Option.some.inj h1 with rfl
          right
          simp only [List.length_cons] at hb ⊢
          omega
        · right
          have hd : (cs.drop (L - 1)).length = cs.length - (L - 1) := List.length_drop _ _
          simp only [List.length_cons] at hb ⊢
          omega
      | none =>
        rw [hm] at h
        rcases ih _ _ _ _ h with h1 | h1
        · exact Or.inl h1
        · right
          simp only [List.length_cons]
          omega

theorem lastMatchEnd_bounds {s : List Char} {e : Nat} (h : lastMatchEnd s = some e) :
    1 ≤ e ∧ e ≤ s.length := by
  rcases lastEndAux_bounds s.length s 0 none e h with h1 | h1
  · cases h1
  · omega

theorem pySlice_length (s : List Char) (a b : Nat) :
    (pySlice s a b).length = min (b - a) (s.length - a) := by
  simp [pySlice]

theorem pyStrip_length_le (s : List Char) : (pyStrip s).length ≤ s.length := by
  calc ((s.dropWhile isPySpace).reverse.dropWhile isPySpace).reverse.length
      ≤ (s.dropWhile isPySpace).reverse.length := by
        rw [List.length_reverse]
        exact (List.dropWhile_sublist _).length_le
    _ ≤ s.length := by
        rw [List.length_reverse]
        exact (List.dropWhile_sublist _).length_le

theorem chunkEnd_bounds {cfg : SplitConfig} {text : List Char} {pos : Nat}
    (hcs : 1 ≤ cfg.chunk_size) (hpos : pos < text.length) :
    pos < chunkEnd cfg text pos ∧ chunkEnd cfg text pos ≤ text.length := by
  unfold chunkEnd
  set end0 := min (pos + cfg.chunk_size) text.length with hend0
  have h1 : pos < end0 := lt_min (by omega) hpos
  have h2 : end0 ≤ text.length := min_le_right _ _
  by_cases hlt : end0 < text.length
  · simp only [hlt, if_true]
    set ss := max pos (end0 - cfg.chunk_size / 5) with hss
    have hss1 : pos ≤ ss := le_max_left _ _
    have hss2 : ss ≤ end0 := max_le (le_of_lt h1) (by omega)
    split
    next e hm =>
      have hb := lastMatchEnd_bounds hm
      rw [pySlice_length] at hb
      omega
    next hm => exact ⟨h1, h2⟩
  · simp only [hlt, if_false]
    exact ⟨h1, h2⟩

theorem nextPos_bounds {cfg : SplitConfig} {text : List Char} {pos : Nat}
    (hcs : 1 ≤ cfg.chunk_size) (hpos : pos < text.length) :
    pos < nextPos cfg text pos ∧ nextPos cfg text pos ≤ chunkEnd cfg text pos := by
  have he := chunkEnd_bounds hcs hpos
  unfold nextPos
  set e := chunkEnd cfg text pos
  set n0 := max (pos + 1) (e - cfg.chunk_overlap) with hn0
  have h1 : pos + 1 ≤ n0 := le_max_left _ _
  by_cases hle : e ≤ n0
  · simp only [hle, if_true]
    omega
  · simp only [hle, if_false]
    omega

theorem splitLoop_total {cfg : SplitConfig} {text : List Char} {md : Option Metadata}
    (hcs : 1 ≤ cfg.chunk_size) :
    ∀ fuel pos idx : Nat, text.length ≤ pos + fuel →
      ∃ l, splitLoop cfg text md fuel pos idx = some l := by
  intro fuel
  induction fuel with
  | zero =>
    intro pos idx hle
    refine ⟨[], ?_⟩
    simp only [splitLoop]
    rw [if_pos (by omega)]
  | succ fuel ih =>
    intro pos idx hle
    by_cases hp : pos < text.length
    · have hnext := (nextPos_bounds hcs hp).1
      obtain ⟨l, hl⟩ := ih (nextPos cfg text pos) (idx + 1) (by omega)
      obtain ⟨l2, hl2⟩ := ih (nextPos cfg text pos) idx (by omega)
      simp only [splitLoop, if_pos hp]
      split
      · rw [hl]
        exact ⟨_, rfl⟩
      · exact ⟨l2, hl2⟩
    · refine ⟨[], ?_⟩
      simp only [splitLoop, if_neg hp]

/-- The per-chunk facts maintained by the scanning loop: every emitted chunk
starts at or after the cursor, spans a non-empty in-range window, stores the
stripped window text together with its length, and carries the metadata
shape of the multi-chunk path; chunk indices are consecutive from the
running index. -/
theorem splitLoop_chunks {cfg : SplitConfig} {text : List Char} {md : Option Metadata}
    (hcs : 1 ≤ cfg.chunk_size) :
    ∀ fuel pos idx l, splitLoop cfg text md fuel pos idx = some l →
      (∀ c ∈ l,
        pos ≤ c.start_char ∧ c.start_char < c.end_char ∧ c.end_char ≤ text.length ∧
        c.text = pyStrip (pySlice text c.start_char c.end_char) ∧
        c.char_count = c.text.length ∧
        c.metadata = (if mdTruthy md then
            md.map (fun m => dictSet m "chunk_index" (PyVal.nat c.chunk_index))
          else none)) ∧
      l.map Chunk.chunk_index = List.range' idx l.length := by
  intro fuel
  induction fuel with
  | zero =>
    intro pos idx l hl
    simp only [splitLoop] at hl
    split at hl
    · cases hl
      exact ⟨by simp, by simp⟩
    · cases hl
  | succ fuel ih =>
    intro pos idx l hl
    simp only [splitLoop] at hl
    by_cases hp : pos < text.length
    · rw [if_pos hp] at hl
      have hend := chunkEnd_bounds hcs hp
      have hnext := nextPos_bounds hcs hp
      split at hl
      · cases hrec : splitLoop cfg text md fuel (nextPos cfg text pos) (idx + 1) with
        | none => rw [hrec] at hl; cases hl
        | some rest =>
          rw [hrec] at hl
          cases hl
          obtain ⟨hmem, hidx⟩ := ih (nextPos cfg text pos) (idx + 1) rest hrec
          constructor
          · intro c hc
            rcases List.mem_cons.mp hc with rfl | hc
            · refine ⟨le_refl _, hend.1, hend.2, rfl, rfl, rfl⟩
            · have h := hmem c hc
              exact ⟨by omega, h.2⟩
          · simp only [List.map_cons, List.length_cons, emitChunk, hidx]
            rw [List.range'_succ]
      · obtain ⟨hmem, hidx⟩ := ih (nextPos cfg text pos) idx l hl
        constructor
        · intro c hc
          have h := hmem c hc
          exact ⟨by omega, h.2⟩
        · exact hidx
    · rw [if_neg hp] at hl
      cases hl
      exact ⟨by simp, by simp⟩

/-- With `min_chunk_size = 0` every scanned window is emitted, and each
chunk after the first starts at or before its predecessor's end. -/
theorem splitLoop_chain {cfg : SplitConfig} {text : List Char} {md : Option Metadata}
    (hcs : 1 ≤ cfg.chunk_size) (hmin : cfg.min_chunk_size = 0) :
    ∀ fuel pos idx l, splitLoop cfg text md fuel pos idx = some l →
      List.Chain' (fun a b => b.start_char ≤ a.end_char) l ∧
      ∀ c ∈ l.head?, c.start_char = pos ∧ c.end_char = chunkEnd cfg text pos := by
  intro fuel
  induction fuel with
  | zero =>
    intro pos idx l hl
    simp only [splitLoop] at hl
    split at hl
    · cases hl
      exact ⟨List.chain'_nil, by simp⟩
    · cases hl
  | succ fuel ih =>
    intro pos idx l hl
    simp only [splitLoop] at hl
    by_cases hp : pos < text.length
    · rw [if_pos hp] at hl
      have hemit : cfg.min_chunk_size ≤
          (pyStrip (pySlice text pos (chunkEnd cfg text pos))).length ∨ idx = 0 :=
        Or.inl (by omega)
      rw [if_pos hemit] at hl
      cases hrec : splitLoop cfg text md fuel (nextPos cfg text pos) (idx + 1) with
      | none => rw [hrec] at hl; cases hl
      | some rest =>
        rw [hrec] at hl
        cases hl
        obtain ⟨hchain, hhead⟩ := ih (nextPos cfg text pos) (idx + 1) rest hrec
        have hnext := nextPos_bounds hcs hp
        constructor
        · rw [List.chain'_cons']
          refine ⟨?_, hchain⟩
          intro b hb
          have := (hhead b hb).1
          simp only [emitChunk]
          omega
        · intro c hc
          simp only [List.head?_cons, Option.mem_def, Option.some.injEq] at hc
          subst hc
          exact ⟨rfl, rfl⟩
    · rw [if_neg hp] at hl
      cases hl
      exact ⟨List.chain'_nil, by simp⟩

theorem length_pos_of_not_isEmpty {l : List Char} (h : ¬ l.isEmpty = true) :
    0 < l.length := by
  cases l with
  | nil => simp [List.isEmpty] at h
  | cons c cs => simp

theorem mdTruthy_some {m : Metadata} (h : m ≠ []) : mdTruthy (some m) = true := by
  cases m with
  | nil => cases h rfl
  | cons p ps => rfl

theorem dictHas_dictSet_self {V : Type} (d : Dict V) (k : String) (v : V) :
    dictHas (dictSet d k v) k = true := by
  by_cases h : dictHas d k
  · simp only [dictSet, h, if_true]
    simp only [dictHas, List.any_eq_true, decide_eq_true_eq] at h ⊢
    obtain ⟨p, hp, hpk⟩ := h
    refine ⟨(k, v), List.mem_map.mpr ⟨p, hp, ?_⟩, rfl⟩
    simp [hpk]
  · simp only [dictSet, if_neg h]
    simp [dictHas]

/-- C1: for every input string and any configuration with `chunk_size ≥ 1`,
`split_text` terminates and returns a list (no fuel exhaustion, which models
the Python loop running forever): on each loop iteration the cursor advances
by at least one character. -/
theorem C1_split_text_terminates (cfg : SplitConfig) (hcs : 1 ≤ cfg.chunk_size) :
    (∀ (text : List Char) (md : Option Metadata), ∃ l, split_text cfg text md = some l) ∧
    (∀ (text : List Char) (pos : Nat), pos < text.length → pos < nextPos cfg text pos) := by
  constructor
  · intro text md
    unfold split_text
    by_cases h0 : (pyStrip text).isEmpty = true
    · rw [if_pos h0]
      exact ⟨[], rfl⟩
    · rw [if_neg h0]
      by_cases hsmall : (pyStrip text).length ≤ cfg.chunk_size
      · rw [if_pos hsmall]
        exact ⟨_, rfl⟩
      · rw [if_neg hsmall]
        exact splitLoop_total hcs _ 0 0 (by omega)
  · intro text pos hpos
    exact (nextPos_bounds hcs hpos).1

/-- Witness for C1 at a concrete configuration and text. -/
theorem C1_witness :
    (∃ l, split_text ⟨5, 7, 3⟩ "hello there".data none = some l) ∧
    0 < nextPos ⟨5, 7, 3⟩ "hello there".data 0 :=
  ⟨(C1_split_text_terminates ⟨5, 7, 3⟩ (by decide)).1 "hello there".data none,
   (C1_split_text_terminates ⟨5, 7, 3⟩ (by decide)).2 "hello there".data 0 (by decide)⟩

/-- C6 counterexample: with `chunk_size = 5`, `chunk_overlap = 0`,
`min_chunk_size = 3` and input `"abcd efg"`, the first emitted chunk spans
`[0, 5)` but stores the trimmed text `"abcd"`, so
`char_count = 4 ≠ 5 = end_char - start_char`: trimming boundary whitespace
breaks the claimed equality. -/
theorem C6_counterexample :
    ∃ l, split_text ⟨5, 0, 3⟩ "abcd efg".data none = some l ∧
      ∃ c ∈ l, ¬ c.char_count = c.end_char - c.start_char := by
  refine ⟨_, rfl, ?_⟩
  decide

/-- C6 (amended): every chunk emitted by `split_text` satisfies
`start_char < end_char` and `char_count` equal to the length of the chunk's
(trimmed) text, which is at most `end_char - start_char`; `chunk_index`
increases by exactly 1 starting at 0 across the chunks of one document. -/
theorem C6_chunk_invariant (cfg : SplitConfig) (text : List Char) (md : Option Metadata)
    (l : List Chunk) (hcs : 1 ≤ cfg.chunk_size) (hl : split_text cfg text md = some l) :
    (∀ c ∈ l, c.start_char < c.end_char ∧ c.char_count = c.text.length ∧
      c.char_count ≤ c.end_char - c.start_char) ∧
    l.map Chunk.chunk_index = List.range l.length := by
  unfold split_text at hl
  by_cases h0 : (pyStrip text).isEmpty = true
  · rw [if_pos h0] at hl
    cases hl
    exact ⟨by simp, by simp⟩
  · rw [if_neg h0] at hl
    by_cases hsmall : (pyStrip text).length ≤ cfg.chunk_size
    · rw [if_pos hsmall] at hl
      cases hl
      have hpos := length_pos_of_not_isEmpty h0
      constructor
      · intro c hc
        simp only [List.mem_singleton] at hc
        subst hc
        exact ⟨hpos, rfl, by simp⟩
      · rfl
    · rw [if_neg hsmall] at hl
      obtain ⟨hmem, hidx⟩ := splitLoop_chunks hcs _ 0 0 l hl
      constructor
      · intro c hc
        obtain ⟨-, hlt, hle, htext, hcc, -⟩ := hmem c hc
        refine ⟨hlt, hcc, ?_⟩
        have := pyStrip_length_le (pySlice (pyStrip text) c.start_char c.end_char)
        rw [pySlice_length] at this
        rw [hcc, htext]
        omega
      · rw [hidx, List.range_eq_range']

/-- Witness for C6 at a concrete configuration and text. -/
theorem C6_witness :
    (∀ c ∈ [Chunk.mk "abcd".data 0 0 5 4 none, Chunk.mk "efg".data 1 5 8 3 none],
      c.start_char < c.end_char ∧ c.char_count = c.text.length ∧
      c.char_count ≤ c.end_char - c.start_char) ∧
    [Chunk.mk "abcd".data 0 0 5 4 none, Chunk.mk "efg".data 1 5 8 3 none].map
      Chunk.chunk_index =
      List.range [Chunk.mk "abcd".data 0 0 5 4 none, Chunk.mk "efg".data 1 5 8 3 none].length :=
  C6_chunk_invariant ⟨5, 0, 3⟩ "abcd efg".data none _ (by decide) (by decide)

/-- C7 counterexample: with `chunk_size = 5`, `chunk_overlap = 1`,
`min_chunk_size = 3` and input `"abcde    fgh"`, the window `[4, 9)` is
scanned but its trimmed text `"e"` is dropped as too small, so the second
*returned* chunk starts at 8, after the first chunk's end 5. -/
theorem C7_counterexample :
    ∃ a b rest, split_text ⟨5, 1, 3⟩ "abcde    fgh".data none = some (a :: b :: rest) ∧
      a.end_char < b.start_char := by
  refine ⟨_, _, _, rfl, ?_⟩
  decide

/-- C7 (amended): the overlap contract `start_char[i+1] ≤ end_char[i]` holds
between chunks emitted in consecutive scan iterations; in particular, when
`min_chunk_size = 0` no window is dropped and every consecutive pair of
returned chunks satisfies it. -/
theorem C7_overlap (cfg : SplitConfig) (text : List Char) (md : Option Metadata)
    (l : List Chunk) (hcs : 1 ≤ cfg.chunk_size) (hmin : cfg.min_chunk_size = 0)
    (hl : split_text cfg text md = some l) :
    List.Chain' (fun a b => b.start_char ≤ a.end_char) l := by
  unfold split_text at hl
  by_cases h0 : (pyStrip text).isEmpty = true
  · rw [if_pos h0] at hl
    cases hl
    exact List.chain'_nil
  · rw [if_neg h0] at hl
    by_cases hsmall : (pyStrip text).length ≤ cfg.chunk_size
    · rw [if_pos hsmall] at hl
      cases hl
      exact List.chain'_singleton _
    · rw [if_neg hsmall] at hl
      exact (splitLoop_chain hcs hmin _ 0 0 l hl).1

/-- Witness for C7 at a concrete configuration and text. -/
theorem C7_witness :
    List.Chain' (fun a b => b.start_char ≤ a.end_char)
      [Chunk.mk "abcde".data 0 0 5 5 none, Chunk.mk "e".data 1 4 9 1 none,
       Chunk.mk "fgh".data 2 8 12 3 none, Chunk.mk "h".data 3 11 12 1 none] :=
  C7_overlap ⟨5, 1, 0⟩ "abcde    fgh".data none _ (by decide) rfl (by decide)

/-- C10: when a non-empty metadata dict is supplied, the multi-chunk path
adds a `chunk_index` key to each chunk's metadata copy, while the
single-chunk path attaches the verbatim copy (no `chunk_index` key added),
so the per-chunk metadata shape differs between the two branches. -/
theorem C10_metadata_shape (cfg : SplitConfig) (text : List Char) (m : Metadata)
    (l : List Chunk) (hm : m ≠ []) (hcs : 1 ≤ cfg.chunk_size)
    (hl : split_text cfg text (some m) = some l) :
    ((pyStrip text).length ≤ cfg.chunk_size → ∀ c ∈ l, c.metadata = some m) ∧
    (cfg.chunk_size < (pyStrip text).length →
      ∀ c ∈ l, ∃ m2, c.metadata = some m2 ∧ dictHas m2 "chunk_index" = true) := by
  have htruthy := mdTruthy_some hm
  unfold split_text at hl
  by_cases h0 : (pyStrip text).isEmpty = true
  · rw [if_pos h0] at hl
    cases hl
    exact ⟨fun _ c hc => absurd hc (List.not_mem_nil c),
           fun _ c hc => absurd hc (List.not_mem_nil c)⟩
  · rw [if_neg h0] at hl
    by_cases hsmall : (pyStrip text).length ≤ cfg.chunk_size
    · rw [if_pos hsmall] at hl
      cases hl
      constructor
      · intro _ c hc
        simp only [List.mem_singleton] at hc
        subst hc
        simp [htruthy]
      · intro hbig
        omega
    · rw [if_neg hsmall] at hl
      obtain ⟨hmem, -⟩ := splitLoop_chunks hcs _ 0 0 l hl
      constructor
      · intro hsmall2
        omega
      · intro _ c hc
        obtain ⟨-, -, -, -, -, hmd⟩ := hmem c hc
        rw [htruthy] at hmd
        simp only [if_true, Option.map_some] at hmd
        exact ⟨_, hmd, dictHas_dictSet_self m "chunk_index" (PyVal.nat c.chunk_index)⟩

/-- Witness for C10 at a concrete configuration, text and metadata dict. -/
theorem C10_witness :
    ((pyStrip "abcd efg".data).length ≤ 5 →
      ∀ c ∈ [Chunk.mk "abcd".data 0 0 5 4 (some [("k", PyVal.str "v"), ("chunk_index", PyVal.nat 0)]),
             Chunk.mk "efg".data 1 5 8 3 (some [("k", PyVal.str "v"), ("chunk_index", PyVal.nat 1)])],
        c.metadata = some [("k", PyVal.str "v")]) ∧
    (5 < (pyStrip "abcd efg".data).length →
      ∀ c ∈ [Chunk.mk "abcd".data 0 0 5 4 (some [("k", PyVal.str "v"), ("chunk_index", PyVal.nat 0)]),
             Chunk.mk "efg".data 1 5 8 3 (some [("k", PyVal.str "v"), ("chunk_index", PyVal.nat 1)])],
        ∃ m2, c.metadata = some m2 ∧ dictHas m2 "chunk_index" = true) :=
  C10_metadata_shape ⟨5, 0, 3⟩ "abcd efg".data [("k", PyVal.str "v")] _
    (by decide) (by decide) (by decide)

/-- C2: every returned search result carries `score = max(0, 1 - distance)`
for its own reported distance; every result whose score is below a supplied
`min_score` is dropped; the survivors appear in the store's order (the
result list is exactly the score-filtered image of the hit list, hence a
sublist of it). -/
theorem C2_search_scoring (minScore : Option ℚ) (hits : List RawHit) :
    processHits minScore hits =
      (hits.map buildResult).filter (fun r => passesMin minScore r.score) ∧
    (processHits minScore hits).Sublist (hits.map buildResult) ∧
    ∀ r ∈ processHits minScore hits, ∀ m, minScore = some m → m ≤ r.score := by
  have hmain : processHits minScore hits =
      (hits.map buildResult).filter (fun r => passesMin minScore r.score) := by
    induction hits with
    | nil => rfl
    | cons h hs ih =>
      have hsc : (buildResult h).score = hitScore h := rfl
      simp only [processHits, List.map_cons, List.filter_cons, hsc, ih]
  refine ⟨hmain, ?_, ?_⟩
  · rw [hmain]
    exact List.filter_sublist _
  · intro r hr m hms
    subst hms
    rw [hmain] at hr
    have hp := List.of_mem_filter hr
    simp only [passesMin, decide_eq_true_eq] at hp
    exact not_lt.mp hp

/-- Witness for C2 at a concrete threshold and hit list. -/
theorem C2_witness : (1 : ℚ) ≤ (buildResult ⟨"t", [], 0⟩).score := by
  have hmem : buildResult ⟨"t", [], 0⟩ ∈ processHits (some 1) [⟨"t", [], 0⟩] := by
    norm_num [processHits, passesMin, hitScore]
  exact (C2_search_scoring (some 1) [⟨"t", [], 0⟩]).2.2 _ hmem 1 rfl

/-- C9 (implicit): `count()` never propagates a backend failure: a raised
backend count comes back as `0`, so a failed count is indistinguishable from
an empty collection. -/
theorem C9_count_masks_failure :
    (∀ e : String, chroma_count (Except.error e) = 0) ∧
    (∀ n : Nat, chroma_count (Except.ok n) = n) ∧
    ∀ e : String, chroma_count (Except.error e) = chroma_count (Except.ok 0) :=
  ⟨fun _ => rfl, fun _ => rfl, fun _ => rfl⟩

/-- C4 counterexample: with both selectors supplied (`document_id = "d1"`,
`file_path = "/p"`) the call does not raise `InvalidArgument`: it proceeds
on the `document_id` branch and succeeds. -/
theorem C4_counterexample :
    delete_document (some "d1") (some "/p") [⟨"d1_chunk_0", "d1", "/p"⟩] =
      Except.ok (1, []) ∧
    delete_document (some "d1") (some "/p") [⟨"d1_chunk_0", "d1", "/p"⟩] ≠
      Except.error DeleteErr.invalidArgument := by
  have h1 : delete_document (some "d1") (some "/p") [⟨"d1_chunk_0", "d1", "/p"⟩] =
      Except.ok (1, []) := rfl
  refine ⟨h1, fun h => ?_⟩
  rw [h1] at h
  exact Except.noConfusion h

/-- C4 (amended): `delete_document` raises `InvalidArgument` exactly when
neither selector is given (both are `None` or empty); when both are given it
does not raise, and with a truthy `document_id` it behaves exactly as if
`file_path` had been omitted. -/
theorem C4_selector_validation (did fp : Option String) (store : List StoredRec) :
    (delete_document did fp store = Except.error DeleteErr.invalidArgument ↔
      truthy did = false ∧ truthy fp = false) ∧
    (truthy did = true → delete_document did fp store = delete_document did none store) := by
  constructor
  · constructor
    · intro h
      by_cases hg : ¬ truthy did = true ∧ ¬ truthy fp = true
      · simp only [Bool.not_eq_true] at hg
        exact hg
      · exfalso
        unfold delete_document at h
        rw [if_neg hg] at h
        by_cases hd : truthy did = true
        · rw [if_pos hd] at h
          split at h <;> simp at h
        · rw [if_neg hd] at h
          split at h <;> simp at h
    · rintro ⟨h1, h2⟩
      unfold delete_document
      rw [if_pos ⟨by simp [h1], by simp [h2]⟩]
  · intro hd
    have hg1 : ¬ (¬ truthy did = true ∧ ¬ truthy fp = true) := fun hcon => hcon.1 hd
    have hg2 : ¬ (¬ truthy did = true ∧ ¬ truthy (none : Option String) = true) :=
      fun hcon => hcon.1 hd
    unfold delete_document
    rw [if_neg hg1, if_neg hg2, if_pos hd, if_pos hd]

/-- Witness for C4 (amended) at concrete selectors and store. -/
theorem C4_witness :
    delete_document (some "d") (some "/q") [] = delete_document (some "d") none [] :=
  (C4_selector_validation (some "d") (some "/q") []).2 (by decide)

/-- C5: `delete_document` raises `NotFound` when no stored record matches
the given `document_id` (resp. `file_path`); when records match it succeeds
with `deleted_count = count_before - count_after`, which equals the number
of matching records (and is positive). -/
theorem C5_delete_counts (d : String) (store : List StoredRec)
    (hd : truthy (some d) = true) :
    (store.any (fun r => r.document_id = d) = false →
      delete_document (some d) none store = Except.error DeleteErr.notFound) ∧
    (∀ n store2, delete_document (some d) none store = Except.ok (n, store2) →
      n = store.length - store2.length ∧
      n = (store.filter (fun r => r.document_id = d)).length ∧ 0 < n) ∧
    (store.any (fun r => r.file_path = d) = false →
      delete_document none (some d) store = Except.error DeleteErr.notFound) ∧
    (∀ n store2, delete_document none (some d) store = Except.ok (n, store2) →
      n = store.length - store2.length ∧
      n = (store.filter (fun r => r.file_path = d)).length ∧ 0 < n) := by
  have hguard1 : ¬ (¬ truthy (some d) = true ∧ ¬ truthy (none : Option String) = true) :=
    fun hcon => hcon.1 hd
  have hguard2 : ¬ (¬ truthy (none : Option String) = true ∧ ¬ truthy (some d) = true) :=
    fun hcon => hcon.2 hd
  have hcount : ∀ (p : StoredRec → Bool),
      store.length - (store.filter (fun r => !(p r))).length = (store.filter p).length := by
    intro p
    have h1 := List.length_eq_countP_add_countP p store
    have h2 := List.countP_eq_length_filter p store
    have h3 := List.countP_eq_length_filter (fun a => decide ¬ p a = true) store
    have h4 : store.filter (fun a => decide ¬ p a = true) = store.filter (fun r => !(p r)) := by
      apply List.filter_congr
      intro a _
      simp
    rw [h4] at h3
    omega
  have hpos : ∀ (p : StoredRec → Bool), store.any p = true → 0 < (store.filter p).length := by
    intro p hp
    obtain ⟨r, hr, hpr⟩ := List.any_eq_true.mp hp
    exact List.length_pos.mpr (List.ne_nil_of_mem (List.mem_filter.mpr ⟨hr, hpr⟩))
  refine ⟨?_, ?_, ?_, ?_⟩
  · intro hnone
    unfold delete_document
    rw [if_neg hguard1, if_pos hd]
    simp only [Option.getD_some]
    rw [if_neg (by simp [hnone])]
  · intro n store2 h
    unfold delete_document at h
    rw [if_neg hguard1, if_pos hd] at h
    simp only [Option.getD_some] at h
    split at h
    · rename_i hany
      simp only [Except.ok.injEq, Prod.mk.injEq] at h
      obtain ⟨hn, hs2⟩ := h
      have hfil : store.filter (fun r => ¬ r.document_id = d) =
          store.filter (fun r => !(fun r => decide (r.document_id = d)) r) := by
        apply List.filter_congr
        intro a _
        simp
      subst hn
      subst hs2
      refine ⟨rfl, ?_, ?_⟩
      · rw [hfil, hcount (fun r => decide (r.document_id = d))]
      · rw [hfil, hcount (fun r => decide (r.document_id = d))]
        exact hpos _ hany
    · simp at h
  · intro hnone
    unfold delete_document
    rw [if_neg hguard2, if_neg (by simp [truthy])]
    simp only [Option.getD_some]
    rw [if_neg (by simp [hnone])]
  · intro n store2 h
    unfold delete_document at h
    rw [if_neg hguard2, if_neg (by simp [truthy])] at h
    simp only [Option.getD_some] at h
    split at h
    · rename_i hany
      simp only [Except.ok.injEq, Prod.mk.injEq] at h
      obtain ⟨hn, hs2⟩ := h
      have hfil : store.filter (fun r => ¬ r.file_path = d) =
          store.filter (fun r => !(fun r => decide (r.file_path = d)) r) := by
        apply List.filter_congr
        intro a _
        simp
      subst hn
      subst hs2
      refine ⟨rfl, ?_, ?_⟩
      · rw [hfil, hcount (fun r => decide (r.file_path = d))]
      · rw [hfil, hcount (fun r => decide (r.file_path = d))]
        exact hpos _ hany
    · simp at h

/-- Witness for C5 at a concrete id and store. -/
theorem C5_witness :
    1 = ([⟨"d1_chunk_0", "d1", "/p"⟩] : List StoredRec).length -
        ([] : List StoredRec).length ∧
    1 = (([⟨"d1_chunk_0", "d1", "/p"⟩] : List StoredRec).filter
        (fun r => r.document_id = "d1")).length ∧
    0 < 1 :=
  (C5_delete_counts "d1" [⟨"d1_chunk_0", "d1", "/p"⟩] (by decide)).2.1 1 [] rfl

theorem dictGet_cons_pos {V : Type} {p : String × V} {ps : Dict V} {k : String}
    (h : p.1 = k) : dictGet (p :: ps) k = some p.2 := by
  simp [dictGet, List.find?, h]

theorem dictGet_cons_neg {V : Type} {p : String × V} {ps : Dict V} {k : String}
    (h : ¬ p.1 = k) : dictGet (p :: ps) k = dictGet ps k := by
  simp [dictGet, List.find?, h]

theorem dictHas_iff_mem {V : Type} (d : Dict V) (k : String) :
    dictHas d k = true ↔ k ∈ d.map Prod.fst := by
  simp only [dictHas, List.any_eq_true, decide_eq_true_eq, List.mem_map]

theorem dictHas_cons {V : Type} {p : String × V} {ps : Dict V} {k : String} :
    dictHas (p :: ps) k = (decide (p.1 = k) || dictHas ps k) := by
  simp [dictHas]

theorem dictGet_map_update {V : Type} (d : Dict V) (k : String) (v : V)
    (h : dictHas d k = true) :
    dictGet (d.map (fun p => if p.1 = k then (k, v) else p)) k = some v := by
  induction d with
  | nil => simp [dictHas] at h
  | cons p ps ih =>
    by_cases hp : p.1 = k
    · rw [List.map_cons, if_pos hp, dictGet_cons_pos rfl]
    · rw [List.map_cons, if_neg hp, dictGet_cons_neg hp]
      rw [dictHas_cons] at h
      simp only [hp, decide_eq_true_eq, Bool.or_eq_true] at h
      rcases h with h | h
      · exact h.elim
      · exact ih h

theorem dictGet_append_new {V : Type} (d : Dict V) (k : String) (v : V)
    (h : dictHas d k = false) :
    dictGet (d ++ [(k, v)]) k = some v := by
  induction d with
  | nil => exact dictGet_cons_pos rfl
  | cons p ps ih =>
    rw [dictHas_cons] at h
    simp only [Bool.or_eq_false_iff, decide_eq_false_iff_not] at h
    rw [List.cons_append, dictGet_cons_neg h.1]
    exact ih h.2

theorem dictGet_dictSet_self {V : Type} (d : Dict V) (k : String) (v : V) :
    dictGet (dictSet d k v) k = some v := by
  by_cases h : dictHas d k
  · rw [dictSet, if_pos h]
    exact dictGet_map_update d k v h
  · rw [dictSet, if_neg h]
    exact dictGet_append_new d k v (by simpa using h)

theorem keys_map_update {V : Type} (d : Dict V) (k : String) (v : V) :
    (d.map (fun p => if p.1 = k then (k, v) else p)).map Prod.fst = d.map Prod.fst := by
  rw [List.map_map]
  apply List.map_congr_left
  intro p _
  by_cases hp : p.1 = k
  · simp [Function.comp, hp]
  · simp [Function.comp, hp]

theorem map_fst_eraseP {V : Type} (d : Dict V) (a : String) :
    (d.eraseP (fun p => p.1 = a)).map Prod.fst = (d.map Prod.fst).erase a := by
  induction d with
  | nil => rfl
  | cons p ps ih =>
    by_cases hp : p.1 = a
    · rw [List.eraseP_cons_of_pos (by simpa using hp), List.map_cons, hp,
        List.erase_cons_head]
    · rw [List.eraseP_cons_of_neg (by simpa using hp), List.map_cons, List.map_cons,
        List.erase_cons_tail (by simpa using hp), ih]

theorem dictHas_eraseP_false {V : Type} (d : Dict V) (a k : String)
    (h : dictHas d k = false) :
    dictHas (d.eraseP (fun p => p.1 = a)) k = false := by
  cases hq : dictHas (d.eraseP (fun p => p.1 = a)) k with
  | false => rfl
  | true =>
    exfalso
    have hmem := (dictHas_iff_mem _ k).mp hq
    rw [map_fst_eraseP] at hmem
    have : k ∈ d.map Prod.fst := List.mem_of_mem_erase hmem
    rw [← dictHas_iff_mem] at this
    rw [this] at h
    cases h

theorem evictLRU_eq {V : Type} (c : LRUCache V) (oldest : String) (rest : List String)
    (h : c.access_order = oldest :: rest) :
    evictLRU c =
      { c with cache := c.cache.eraseP (fun p => p.1 = oldest), access_order := rest } := by
  unfold evictLRU
  rw [h]

/-- C3: the cache is least-recently-used with `get` bumping recency.  With
`maxsize = 2`, `set(1,"a"); set(2,"b"); get("a"); set(3,"c")` leaves `"b"`
absent (evicted as LRU), `"a"` and `"c"` present, and `size() = 2`.  In
general (under the representation invariant): `get` on a hit moves the key
to the most-recent end; `set` on an existing key replaces its value and
refreshes its recency without evicting anything; `set` on a new key at
capacity evicts exactly the key at the front of `access_order` (the least
recently used) before inserting. -/
theorem C3_lru_semantics :
    ((((((LRUCache.init Nat 2).set 1 "a").set 2 "b").get "a").2.set 3 "c").get "b").1 =
      none ∧
    ((((((LRUCache.init Nat 2).set 1 "a").set 2 "b").get "a").2.set 3 "c").get "a").1 =
      some 1 ∧
    ((((((LRUCache.init Nat 2).set 1 "a").set 2 "b").get "a").2.set 3 "c").get "c").1 =
      some 3 ∧
    (((((LRUCache.init Nat 2).set 1 "a").set 2 "b").get "a").2.set 3 "c").size = 2 ∧
    (∀ (V : Type) (c : LRUCache V) (v : V) (k : String), c.Inv →
      (dictHas c.cache k = true →
        (c.get k).1 = dictGet c.cache k ∧
        (c.get k).2.access_order = c.access_order.erase k ++ [k] ∧
        (c.get k).2.cache = c.cache) ∧
      (dictHas c.cache k = true →
        (c.set v k).keys = c.keys ∧
        dictGet (c.set v k).cache k = some v ∧
        (c.set v k).access_order = c.access_order.erase k ++ [k] ∧
        (c.set v k).size = c.size) ∧
      (∀ oldest rest, dictHas c.cache k = false → c.cache.length = c.maxsize →
        c.access_order = oldest :: rest →
        (c.set v k).keys = c.keys.erase oldest ++ [k] ∧
        dictGet (c.set v k).cache k = some v ∧
        (c.set v k).access_order = rest ++ [k] ∧
        (c.set v k).size = c.maxsize)) := by
  refine ⟨by decide, by decide, by decide, by decide, ?_⟩
  intro V c v k hInv
  obtain ⟨hnodK, hnodO, hKO, hOK⟩ := hInv
  refine ⟨?_, ?_, ?_⟩
  · intro hk
    simp [LRUCache.get, hk]
  · intro hk
    have hguard : ¬ (c.maxsize ≤ c.cache.length ∧ ¬ dictHas c.cache k = true) :=
      fun hcon => hcon.2 hk
    simp only [LRUCache.set]
    rw [if_neg hguard]
    refine ⟨?_, ?_, rfl, ?_⟩
    · simp only [LRUCache.keys, dictSet, if_pos hk]
      exact keys_map_update c.cache k v
    · exact dictGet_dictSet_self c.cache k v
    · simp only [LRUCache.size, dictSet, if_pos hk, List.length_map]
  · intro oldest rest hk hlen horder
    have hguard : c.maxsize ≤ c.cache.length ∧ ¬ dictHas c.cache k = true :=
      ⟨le_of_eq hlen.symm, by simp [hk]⟩
    have hkeys_erase := map_fst_eraseP c.cache oldest
    have hkmem : k ∉ c.cache.map Prod.fst := by
      intro hmem
      rw [← dictHas_iff_mem] at hmem
      rw [hmem] at hk
      cases hk
    have hkAO : k ∉ c.access_order := fun hmem => hkmem (hOK k hmem)
    have hkrest : k ∉ rest := fun hmem => hkAO (horder ▸ List.mem_cons_of_mem _ hmem)
    have holdK : oldest ∈ c.cache.map Prod.fst :=
      hOK oldest (horder ▸ List.mem_cons_self _ _)
    have hmaxpos : 0 < c.maxsize := by
      have : 0 < (c.cache.map Prod.fst).length := List.length_pos.mpr
        (List.ne_nil_of_mem holdK)
      rw [List.length_map] at this
      omega
    have hErNew : dictHas (c.cache.eraseP (fun p => p.1 = oldest)) k = false :=
      dictHas_eraseP_false c.cache oldest k hk
    simp only [LRUCache.set]
    rw [if_pos hguard, evictLRU_eq c oldest rest horder]
    simp only [dictSet, hErNew, Bool.false_eq_true, if_false, LRUCache.keys, LRUCache.size]
    refine ⟨?_, ?_, ?_, ?_⟩
    · rw [List.map_append, hkeys_erase]
      rfl
    · exact dictGet_append_new _ k v hErNew
    · rw [List.erase_of_not_mem hkrest]
    · rw [List.length_append]
      have hlen2 : (c.cache.eraseP (fun p => p.1 = oldest)).length =
          ((c.cache.map Prod.fst).erase oldest).length := by
        rw [← hkeys_erase, List.length_map]
      rw [List.length_erase_of_mem holdK, List.length_map] at hlen2
      simp only [List.length_cons, List.length_nil]
      omega

/-- Witness for C3's general part at a concrete cache state. -/
theorem C3_witness :
    ((⟨2, [("a", 1), ("b", 2)], ["a", "b"]⟩ : LRUCache Nat).set 9 "x").keys =
      (["a", "b"].erase "a") ++ ["x"] ∧
    dictGet ((⟨2, [("a", 1), ("b", 2)], ["a", "b"]⟩ : LRUCache Nat).set 9 "x").cache "x" =
      some 9 ∧
    ((⟨2, [("a", 1), ("b", 2)], ["a", "b"]⟩ : LRUCache Nat).set 9 "x").access_order =
      ["b"] ++ ["x"] ∧
    ((⟨2, [("a", 1), ("b", 2)], ["a", "b"]⟩ : LRUCache Nat).set 9 "x").size = 2 :=
  (C3_lru_semantics.2.2.2.2 Nat ⟨2, [("a", 1), ("b", 2)], ["a", "b"]⟩ 9 "x"
    (by refine ⟨by decide, by decide, by decide, by decide⟩)).2.2
    "a" ["b"] (by decide) (by decide) rfl

theorem split_text_indices (cfg : SplitConfig) (text : List Char) (md : Option Metadata)
    (l : List Chunk) (hcs : 1 ≤ cfg.chunk_size) (hl : split_text cfg text md = some l) :
    l.map Chunk.chunk_index = List.range l.length := by
  unfold split_text at hl
  by_cases h0 : (pyStrip text).isEmpty = true
  · rw [if_pos h0] at hl
    cases hl
    rfl
  · rw [if_neg h0] at hl
    by_cases hsmall : (pyStrip text).length ≤ cfg.chunk_size
    · rw [if_pos hsmall] at hl
      cases hl
      rfl
    · rw [if_neg hsmall] at hl
      rw [(splitLoop_chunks hcs _ 0 0 l hl).2, List.range_eq_range']

theorem toDigitsCore_append (b : Nat) :
    ∀ (f n : Nat) (acc : List Char),
      Nat.toDigitsCore b f n acc = Nat.toDigitsCore b f n [] ++ acc := by
  intro f
  induction f with
  | zero =>
    intro n acc
    simp [Nat.toDigitsCore]
  | succ f ih =>
    intro n acc
    simp only [Nat.toDigitsCore]
    by_cases h : n / b = 0
    · simp [h]
    · rw [if_neg h, if_neg h, ih (n / b) (Nat.digitChar (n % b) :: acc),
        ih (n / b) [Nat.digitChar (n % b)], List.append_assoc]
      rfl

theorem digitVal_digitChar {d : Nat} (h : d < 10) :
    digitVal (Nat.digitChar d) = d := by
  interval_cases d <;> rfl

theorem digitsVal_append (l : List Char) (c : Char) :
    digitsVal (l ++ [c]) = 10 * digitsVal l + digitVal c := by
  simp [digitsVal, List.foldl_append]

theorem toDigitsCore_val :
    ∀ f n : Nat, n < f → digitsVal (Nat.toDigitsCore 10 f n []) = n := by
  intro f
  induction f with
  | zero =>
    intro n h
    omega
  | succ f ih =>
    intro n h
    simp only [Nat.toDigitsCore]
    by_cases hdiv : n / 10 = 0
    · rw [if_pos hdiv]
      have h10 : n < 10 := by omega
      show digitsVal [Nat.digitChar (n % 10)] = n
      have : digitsVal [Nat.digitChar (n % 10)] = digitVal (Nat.digitChar (n % 10)) := by
        simp [digitsVal]
      rw [this, digitVal_digitChar (Nat.mod_lt n (by norm_num))]
      omega
    · rw [if_neg hdiv]
      rw [toDigitsCore_append 10 f (n / 10) [Nat.digitChar (n % 10)], digitsVal_append,
        ih (n / 10) (by omega), digitVal_digitChar (Nat.mod_lt n (by omega))]
      omega

theorem repr_data (n : Nat) :
    (Nat.repr n).data = Nat.toDigitsCore 10 (n + 1) n [] := rfl

theorem natRepr_injective : Function.Injective Nat.repr := by
  intro m n h
  have hm := toDigitsCore_val (m + 1) m (by omega)
  have hn := toDigitsCore_val (n + 1) n (by omega)
  have hdata : digitsVal (Nat.repr m).data = digitsVal (Nat.repr n).data := by rw [h]
  rw [repr_data, repr_data] at hdata
  omega

theorem string_data_append (a b : String) : (a ++ b).data = a.data ++ b.data := rfl

theorem chunkId_injective (d : String) :
    Function.Injective (fun i : Nat => d ++ "_chunk_" ++ Nat.repr i) := by
  intro i j h
  have hd : ((d ++ "_chunk_") ++ Nat.repr i).data = ((d ++ "_chunk_") ++ Nat.repr j).data :=
    congrArg String.data h
  rw [string_data_append, string_data_append] at hd
  have hcancel := List.append_cancel_left hd
  exact natRepr_injective (String.ext hcancel)

theorem enumFrom_map_ids (d : String) :
    ∀ (l : List Chunk) (s : Nat),
      l.map Chunk.chunk_index = List.range' s l.length →
      (l.enumFrom s).map (fun p => d ++ "_chunk_" ++ Nat.repr p.1) =
        l.map (fun c => d ++ "_chunk_" ++ Nat.repr c.chunk_index) := by
  intro l
  induction l with
  | nil => intro s _; rfl
  | cons c cs ih =>
    intro s hidx
    simp only [List.map_cons, List.length_cons, List.range'_succ] at hidx
    obtain ⟨h1, h2⟩ := List.cons.inj hidx
    simp only [List.enumFrom, List.map_cons, h1, ih (s + 1) h2]

/-- C8: each chunk id stored by `index_document` equals
`"{document_id}_chunk_{chunk_index}"` for that chunk's own `chunk_index`
field (the positional index of the enumeration coincides with the chunk's
`chunk_index`), and the ids minted in one call are pairwise distinct. -/
theorem C8_chunk_ids (cfg : SplitConfig) (text : List Char) (md : Option Metadata)
    (l : List Chunk) (d : String) (hcs : 1 ≤ cfg.chunk_size)
    (hl : split_text cfg text md = some l) :
    mkChunkIds d l = l.map (fun c => d ++ "_chunk_" ++ Nat.repr c.chunk_index) ∧
    (mkChunkIds d l).Nodup := by
  have hidx := split_text_indices cfg text md l hcs hl
  have hidx' : l.map Chunk.chunk_index = List.range' 0 l.length := by
    rw [hidx, List.range_eq_range']
  have heq : mkChunkIds d l = l.map (fun c => d ++ "_chunk_" ++ Nat.repr c.chunk_index) :=
    enumFrom_map_ids d l 0 hidx'
  refine ⟨heq, ?_⟩
  rw [heq]
  have hmm : l.map (fun c => d ++ "_chunk_" ++ Nat.repr c.chunk_index) =
      (l.map Chunk.chunk_index).map (fun i => d ++ "_chunk_" ++ Nat.repr i) := by
    rw [List.map_map]
    rfl
  rw [hmm, hidx]
  exact (List.nodup_range _).map (chunkId_injective d)

/-- Witness for C8 at a concrete split and document id. -/
theorem C8_witness :
    mkChunkIds "doc" [Chunk.mk "abcd".data 0 0 5 4 none, Chunk.mk "efg".data 1 5 8 3 none] =
      [Chunk.mk "abcd".data 0 0 5 4 none, Chunk.mk "efg".data 1 5 8 3 none].map
        (fun c => "doc" ++ "_chunk_" ++ Nat.repr c.chunk_index) ∧
    (mkChunkIds "doc"
      [Chunk.mk "abcd".data 0 0 5 4 none, Chunk.mk "efg".data 1 5 8 3 none]).Nodup :=
  C8_chunk_ids ⟨5, 0, 3⟩ "abcd efg".data none _ "doc" (by decide) (by decide)

end Rag
